import Mathlib

/-!
Verification development for the moar-news RSS aggregator.

We give a shallow embedding of the core of the program:
the SQLite-backed store (`src/db.rs`), the discussion-link resolver,
the raw-XML comments extractor, and the refresh coordinator
(`src/fetcher.rs`).  Rows of the `items` and `feeds` tables are modelled
as Lean structures, the tables as lists of rows, SQL statements as pure
functions on those lists, and the fallible/stateful parts of the fetcher
as explicit state passing, with the outcome of each feed's HTTP fetch
and parse supplied as an input.
-/

namespace MoarNews

/-- A row of the `items` table (`struct Item` in `src/db.rs`).
`id` is the INTEGER PRIMARY KEY assigned by the store; `published` is the
RFC3339 text column (SQLite compares TEXT columns lexicographically, which
for RFC3339 UTC stamps is chronological order). -/
structure Item where
  id : Nat
  feed_id : Nat
  guid : String
  title : String
  link : String
  discussion_link : Option String
  published : Option String
deriving Repr, DecidableEq

/-- A row of the `feeds` table (`struct Feed` in `src/db.rs`). -/
structure Feed where
  id : Nat
  name : String
  url : String
  has_discussion : Bool
  last_fetched : Option String
  last_error : Option String
  homepage_url : Option String
deriving Repr, DecidableEq

/-- The database state: the two tables, plus the next rowid the `items`
table will assign (SQLite INTEGER PRIMARY KEY assignment). -/
structure Db where
  feeds : List Feed
  items : List Item
  nextItemId : Nat
deriving Repr, DecidableEq

/-- The empty database (fresh `initialize`d store with no feeds synced). -/
def emptyDb : Db := ⟨[], [], 1⟩

/-- Does an item row match the `(feed_id, guid)` key?  This is the
`ON CONFLICT(feed_id, guid)` / `UNIQUE(feed_id, guid)` key of `items`. -/
def keyMatch (feed_id : Nat) (guid : String) (r : Item) : Bool :=
  r.feed_id == feed_id && r.guid == guid

/-- Overwrite the non-key payload columns of a row, as the
`DO UPDATE SET title = excluded.title, link = excluded.link,
discussion_link = excluded.discussion_link, published = excluded.published`
clause does: `id`, `feed_id` and `guid` are untouched. -/
def overwriteRow (title link : String) (discussion_link published : Option String)
    (r : Item) : Item :=
  { r with title := title, link := link,
           discussion_link := discussion_link, published := published }

/-- `Database::upsert_item` (`src/db.rs`):
`INSERT INTO items ... ON CONFLICT(feed_id, guid) DO UPDATE SET ...`.
If a row with the key exists it is updated in place (id preserved),
otherwise a fresh row with the next rowid is appended. -/
def upsert_item (db : Db) (feed_id : Nat) (guid title link : String)
    (discussion_link : Option String) (published : Option String) : Db :=
  if db.items.any (keyMatch feed_id guid) then
    { db with items := db.items.map (fun r =>
        if keyMatch feed_id guid r then
          overwriteRow title link discussion_link published r
        else r) }
  else
    { db with
      items := db.items ++
        [⟨db.nextItemId, feed_id, guid, title, link, discussion_link, published⟩],
      nextItemId := db.nextItemId + 1 }

/-- `Database::get_item_count_for_feed`:
`SELECT COUNT(*) FROM items WHERE feed_id = ?`. -/
def get_item_count_for_feed (db : Db) (feed_id : Nat) : Nat :=
  (db.items.filter (fun r => r.feed_id == feed_id)).length

/-- The ordering used by `get_items_for_feed`'s
`ORDER BY published DESC NULLS LAST, id DESC`: `a` comes no later than `b`
iff `a.published > b.published` (descending), with NULL after every
non-NULL value, ties broken by descending `id`. -/
def itemLe (a b : Item) : Bool :=
  match a.published, b.published with
  | some x, some y => if x = y then decide (b.id ≤ a.id) else decide (y < x)
  | some _, none => true
  | none, some _ => false
  | none, none => decide (b.id ≤ a.id)

/-- `Database::get_items_for_feed` (`src/db.rs`):
`SELECT * FROM items WHERE feed_id = ? ORDER BY published DESC NULLS LAST,
id DESC LIMIT ? OFFSET ?`. -/
def get_items_for_feed (db : Db) (feed_id limit offset : Nat) : List Item :=
  ((((db.items.filter (fun r => r.feed_id == feed_id))).mergeSort itemLe).drop
    offset).take limit

/-- `Database::update_feed_fetched` (`src/db.rs`):
`UPDATE feeds SET last_fetched = ?, last_error = ?,
homepage_url = COALESCE(?, homepage_url) WHERE id = ?`.
`now` is the `Utc::now().to_rfc3339()` stamp taken at call time, passed
explicitly here.  `COALESCE(?, homepage_url)` keeps the old value exactly
when the bound parameter is NULL (`none`). -/
def update_feed_fetched (db : Db) (now : String) (feed_id : Nat)
    (error : Option String) (homepage_url : Option String) : Db :=
  { db with feeds := db.feeds.map (fun f =>
      if f.id == feed_id then
        { f with last_fetched := some now, last_error := error,
                 homepage_url := match homepage_url with
                   | some h => some h
                   | none => f.homepage_url }
      else f) }

/-- Look a feed row up by id (`SELECT * FROM feeds WHERE id = ?`,
first match). -/
def findFeed (db : Db) (feed_id : Nat) : Option Feed :=
  db.feeds.find? (fun f => f.id == feed_id)

/-! ### Raw-XML comments extractor (`src/fetcher.rs`)

The Rust code works on `&str` slices; we work on `List Char` with the
same operations: `findSub` is `str::find` (index of the first occurrence
of a substring), `splitOnSub` is `str::split` on a substring pattern,
`trimChars` is `str::trim`. -/

/-- Is a byte a UTF-8 continuation byte (`0x80..=0xBF`)? -/
def isCont (b : Nat) : Bool := 0x80 ≤ b && b ≤ 0xBF

/-- UTF-8 decoding with the exact validation of Rust's
`std::str::from_utf8` (rejects overlong encodings, surrogates and
code points above `0x10FFFF`); `none` on invalid input. -/
def utf8Decode? : List Nat → Option (List Char)
  | [] => some []
  | b :: rest =>
    if b ≤ 0x7F then
      (utf8Decode? rest).map (fun cs => Char.ofNat b :: cs)
    else if 0xC2 ≤ b && b ≤ 0xDF then
      match rest with
      | b1 :: rest1 =>
        if isCont b1 then
          (utf8Decode? rest1).map (fun cs =>
            Char.ofNat ((b - 0xC0) * 64 + (b1 - 0x80)) :: cs)
        else none
      | [] => none
    else if 0xE0 ≤ b && b ≤ 0xEF then
      match rest with
      | b1 :: b2 :: rest2 =>
        let okB1 : Bool :=
          if b = 0xE0 then 0xA0 ≤ b1 && b1 ≤ 0xBF
          else if b = 0xED then 0x80 ≤ b1 && b1 ≤ 0x9F
          else isCont b1
        if okB1 && isCont b2 then
          (utf8Decode? rest2).map (fun cs =>
            Char.ofNat ((b - 0xE0) * 4096 + (b1 - 0x80) * 64 + (b2 - 0x80)) :: cs)
        else none
      | _ => none
    else if 0xF0 ≤ b && b ≤ 0xF4 then
      match rest with
      | b1 :: b2 :: b3 :: rest3 =>
        let okB1 : Bool :=
          if b = 0xF0 then 0x90 ≤ b1 && b1 ≤ 0xBF
          else if b = 0xF4 then 0x80 ≤ b1 && b1 ≤ 0x8F
          else isCont b1
        if okB1 && isCont b2 && isCont b3 then
          (utf8Decode? rest3).map (fun cs =>
            Char.ofNat ((b - 0xF0) * 262144 + (b1 - 0x80) * 4096 +
              (b2 - 0x80) * 64 + (b3 - 0x80)) :: cs)
        else none
      | _ => none
    else none

/-- `str::find(pat)`: index of the first occurrence of `pat`. -/
def findSub (pat : List Char) : List Char → Option Nat
  | [] => if pat.isEmpty then some 0 else none
  | c :: rest =>
    if pat.isPrefixOf (c :: rest) then some 0
    else (findSub pat rest).map (· + 1)

/-- Rust `str::contains(pat)` (substring containment). -/
def containsSub (pat : List Char) : List Char → Bool
  | [] => pat.isEmpty
  | c :: rest => pat.isPrefixOf (c :: rest) || containsSub pat rest

/-- `str::contains` lifted to `String`. -/
def strContains (s : String) (pat : String) : Bool :=
  containsSub pat.toList s.toList

/-- Fuel-indexed worker for `splitOnSub`; the fuel `s.length + 1` never
runs out for a non-empty pattern, since each step consumes at least one
element. -/
def splitOnSubAux (pat : List Char) : Nat → List Char → List (List Char)
  | 0, s => [s]
  | fuel + 1, s =>
    match findSub pat s with
    | none => [s]
    | some i => s.take i :: splitOnSubAux pat fuel (s.drop (i + pat.length))

/-- Rust `str::split(pat)` on a substring pattern: the pieces between
non-overlapping occurrences of `pat`, scanned left to right. -/
def splitOnSub (pat s : List Char) : List (List Char) :=
  splitOnSubAux pat (s.length + 1) s

/-- `str::trim`: strip leading and trailing whitespace. -/
def trimChars (l : List Char) : List Char :=
  ((l.dropWhile Char.isWhitespace).reverse.dropWhile Char.isWhitespace).reverse

/-- `Fetcher::extract_xml_element` (`src/fetcher.rs`): the text between
the first `<tag>` and the next matching `</tag>` after it, trimmed;
`none` if either tag is missing. -/
def extract_xml_element (xml : List Char) (tag : String) : Option (List Char) :=
  let startTag := ("<" ++ tag ++ ">").toList
  let endTag := ("</" ++ tag ++ ">").toList
  (findSub startTag xml).bind (fun i =>
    let rest := xml.drop (i + startTag.length)
    (findSub endTag rest).map (fun j => trimChars (rest.take j)))

/-- `HashMap::get`, on our association-list model of the map. -/
def lookupMap (m : List (String × String)) (k : String) : Option String :=
  (m.find? (fun p => p.1 == k)).map Prod.snd

/-- `HashMap::insert`: overwrite the value if the key is present,
otherwise add the binding. -/
def insertMap (m : List (String × String)) (k v : String) :
    List (String × String) :=
  if m.any (fun p => p.1 == k) then
    m.map (fun p => if p.1 == k then (k, v) else p)
  else m ++ [(k, v)]

/-- The `<item>` blocks of the raw text: `xml_str.split("<item>").skip(1)`,
each block cut at its first `</item>` when present
(`item_block.find("</item>").unwrap_or(item_block.len())`). -/
def itemBlocks (s : List Char) : List (List Char) :=
  ((splitOnSub ("<item>".toList) s).drop 1).map (fun blk =>
    blk.take ((findSub ("</item>".toList) blk).getD blk.length))

/-- The link/comments pair of one item block, when both are found. -/
def itemPair (blk : List Char) : Option (String × String) :=
  match extract_xml_element blk "link", extract_xml_element blk "comments" with
  | some l, some c => some (String.mk l, String.mk c)
  | _, _ => none

/-- The link/comments pairs of all item blocks, in document order. -/
def itemPairs (s : List Char) : List (String × String) :=
  (itemBlocks s).filterMap itemPair

/-- `Fetcher::extract_comments_from_xml` (`src/fetcher.rs`): decode the
bytes (empty map on invalid UTF-8), then record `link → comments` for
each item block in which both are found, in document order. -/
def extract_comments_from_xml (bytes : List Nat) : List (String × String) :=
  match utf8Decode? bytes with
  | none => []
  | some s => (itemPairs s).foldl (fun m p => insertMap m p.1 p.2) []

/-! ### Discussion-link resolver (`src/fetcher.rs`) -/

/-- A link of a parsed entry (`feed_rs::model::Link`): href plus the
optional relation tag. -/
structure FLink where
  href : String
  rel : Option String
deriving Repr, DecidableEq

/-- A parsed entry (`feed_rs::model::Entry`, the fields the fetcher
uses): id, optional title text, links, optional published/updated
timestamps. -/
structure Entry where
  id : String
  title : Option String
  links : List FLink
  published : Option String
  updated : Option String
deriving Repr, DecidableEq

/-- The final loop of `extract_discussion_link`: first link whose
lowercased relation tag is `replies` or `comments`, case-insensitively
(`link.rel.as_deref().unwrap_or("").to_lowercase()`). -/
def findRelLink (links : List FLink) : Option String :=
  (links.find? (fun l =>
    let rel := (l.rel.getD "").toLower
    rel == "replies" || rel == "comments")).map FLink.href

/-- `Fetcher::extract_discussion_link` (`src/fetcher.rs`), with the
early returns flattened into an if-chain (each flattened guard is the
conjunction of the enclosing `if feed.url.contains(...)` and the inner
check, so the chain is reached in the same order as the Rust returns). -/
def extract_discussion_link (feed : Feed) (entry : Entry)
    (comments_from_xml : Option String) (main_link : String) : Option String :=
  if !feed.has_discussion then none
  else if strContains feed.url "news.ycombinator.com" &&
          strContains main_link "news.ycombinator.com/item?id=" then none
  else if strContains feed.url "news.ycombinator.com" &&
          strContains entry.id "news.ycombinator.com/item?id=" then some entry.id
  else if strContains feed.url "lobste.rs" &&
          strContains entry.id "lobste.rs/s/" then some entry.id
  else
    match comments_from_xml with
    | some c => some c
    | none => findRelLink entry.links

/-- The source-specific identity heuristic of the resolver, as its own
strategy: `some d` means the heuristic decided (on `d`, which may itself
be `none` for a self-discussion post), `none` means it did not decide
and the later strategies are consulted. -/
def identityDecision (feed : Feed) (entry : Entry) (main_link : String) :
    Option (Option String) :=
  if strContains feed.url "news.ycombinator.com" &&
     strContains main_link "news.ycombinator.com/item?id=" then some none
  else if strContains feed.url "news.ycombinator.com" &&
          strContains entry.id "news.ycombinator.com/item?id=" then
    some (some entry.id)
  else if strContains feed.url "lobste.rs" &&
          strContains entry.id "lobste.rs/s/" then some (some entry.id)
  else none

/-- The resolver as the spec's ordered strategy chain (spec 4.2,
first match wins): `hasDiscussion` gate, then the source-specific
identity heuristic, then the extracted comments URL for the article's
primary link, then the relation-tag scan, else none. -/
def resolverSpec (feed : Feed) (entry : Entry)
    (comments_from_xml : Option String) (main_link : String) : Option String :=
  if !feed.has_discussion then none
  else
    match identityDecision feed entry main_link with
    | some d => d
    | none =>
      match comments_from_xml with
      | some c => some c
      | none => findRelLink entry.links

/-! ### Fetcher / refresh coordinator (`src/fetcher.rs`) -/

/-- The values `refresh_feed` derives from one entry before upserting. -/
structure ItemData where
  guid : String
  title : String
  link : String
  discussion_link : Option String
  published : Option String
deriving Repr, DecidableEq

/-- The per-entry derivation inside `Fetcher::refresh_feed`: title falls
back to `"Untitled"`, the primary link is the first link's href
(`unwrap_or_default`, then `continue` when empty — `none` here),
the discussion link comes from the resolver, published falls back to
updated. -/
def entryRecord (feed : Feed) (comments_map : List (String × String))
    (entry : Entry) : Option ItemData :=
  let title := entry.title.getD "Untitled"
  let link := ((entry.links.head?).map FLink.href).getD ""
  if link == "" then none
  else some
    { guid := entry.id, title := title, link := link,
      discussion_link :=
        extract_discussion_link feed entry (lookupMap comments_map link) link,
      published := entry.published.or entry.updated }

/-- `upsert_item` applied to one derived record. -/
def upsertRecord (db : Db) (feed_id : Nat) (r : ItemData) : Db :=
  upsert_item db feed_id r.guid r.title r.link r.discussion_link r.published

/-- `Fetcher::refresh_feed` after a successful fetch and parse: run the
comments extractor over the raw bytes, then upsert each entry's derived
record, skipping entries with no link.  The parsed `entries` stand for
the external feed parser's output on those bytes. -/
def refresh_feed (db : Db) (feed : Feed) (bytes : List Nat)
    (entries : List Entry) : Db :=
  let comments_map := extract_comments_from_xml bytes
  entries.foldl (fun db e =>
    match entryRecord feed comments_map e with
    | none => db
    | some r => upsertRecord db feed.id r) db

/-- The outcome of fetching and parsing one feed, supplied as an input
to the cycle: `error` is a fetch or parse failure (its message), `ok`
carries the raw bytes and the parsed entries. -/
abbrev FetchOutcome := Except String (List Nat × List Entry)

/-- One iteration of the loop in `Fetcher::do_refresh_all`: on failure
record the error text via `update_feed_fetched` (no homepage); on
success ingest the feed then stamp success (clearing any prior error). -/
def processFeed (now : String) (fetch : Feed → FetchOutcome) (db : Db)
    (feed : Feed) : Db :=
  match fetch feed with
  | .error e => update_feed_fetched db now feed.id (some e) none
  | .ok (bytes, entries) =>
    update_feed_fetched (refresh_feed db feed bytes entries) now feed.id
      none none

/-- `Fetcher::do_refresh_all`: list the feeds (a snapshot; `listErr`
models a storage failure of `get_all_feeds`, propagated with `?`), then
process each sequentially; per-feed failures are absorbed by
`processFeed`, so the cycle itself returns `ok`. -/
def do_refresh_all (db : Db) (now : String) (listErr : Option String)
    (fetch : Feed → FetchOutcome) : Db × Except String Unit :=
  match listErr with
  | some e => (db, .error e)
  | none => (db.feeds.foldl (processFeed now fetch) db, .ok ())

/-- The fetcher's state: the store plus the refresh-in-progress flag. -/
structure FetcherState where
  db : Db
  refreshing : Bool
deriving Repr, DecidableEq

/-- `Fetcher::refresh_all_feeds`: if the flag is held, return `ok`
immediately; otherwise set the flag, run the cycle, clear the flag
unconditionally, and return the cycle's result. -/
def refresh_all_feeds (st : FetcherState) (now : String)
    (listErr : Option String) (fetch : Feed → FetchOutcome) :
    FetcherState × Except String Unit :=
  if st.refreshing then (st, .ok ())
  else
    let acquired : FetcherState := { st with refreshing := true }
    let done := do_refresh_all acquired.db now listErr fetch
    ({ acquired with db := done.1, refreshing := false }, done.2)

/-- The error text `do_refresh_all` records for one feed's outcome:
the message on failure, nothing (clearing any prior error) on success. -/
def outcomeError : FetchOutcome → Option String
  | .error e => some e
  | .ok _ => none

/-- One call of `upsert_item`, as data (for reasoning about sequences
of calls). -/
structure UpsertCall where
  feed_id : Nat
  guid : String
  title : String
  link : String
  discussion_link : Option String
  published : Option String
deriving Repr, DecidableEq

/-- Apply one recorded `upsert_item` call. -/
def applyCall (db : Db) (c : UpsertCall) : Db :=
  upsert_item db c.feed_id c.guid c.title c.link c.discussion_link c.published

/-- Apply a sequence of `upsert_item` calls in order. -/
def applyCalls (calls : List UpsertCall) (db : Db) : Db :=
  calls.foldl applyCall db

/-- Number of item rows with the given `(feed_id, guid)` key. -/
def countKey (db : Db) (feed_id : Nat) (guid : String) : Nat :=
  db.items.countP (keyMatch feed_id guid)

/-- The per-feed-row effect of `update_feed_fetched` on the matching
row (the `SET` clause). -/
def stampFeed (now : String) (err hp : Option String) (f : Feed) : Feed :=
  { f with last_fetched := some now, last_error := err,
           homepage_url := match hp with
             | some h => some h
             | none => f.homepage_url }

/-! ## Theorems -/

/-- **C5** (amended: the homepage URL is kept exactly when the bound
homepage parameter is NULL — `COALESCE` does not treat an empty string
as absent).  `update_feed_fetched` maps the feed with the given id to a
copy whose last-fetched stamp is the fresh `now`, whose last-error is
exactly the given value (so passing none clears a prior error), and
whose homepage is the supplied value when one is supplied and the old
value otherwise; every other feed row, every other field, and the items
table are untouched. -/
theorem update_feed_fetched_spec (db : Db) (now : String) (fid : Nat)
    (err hp : Option String) :
    (update_feed_fetched db now fid err hp).feeds =
      db.feeds.map (fun f =>
        if f.id = fid then
          { f with last_fetched := some now, last_error := err,
                   homepage_url := hp.or f.homepage_url }
        else f) ∧
    (update_feed_fetched db now fid err hp).items = db.items ∧
    (update_feed_fetched db now fid err hp).nextItemId = db.nextItemId := by
  refine ⟨?_, rfl, rfl⟩
  simp only [update_feed_fetched]
  congr 1
  funext f
  cases hp <;> simp [Option.or]

/-- **C5**, counterexample to the claim as stated: supplying an *empty*
homepage URL still overwrites the stored homepage, because `COALESCE`
only skips NULL.  Here the previous homepage `some "https://old"` is
replaced by `some ""` although the supplied homepage URL is empty, so
the field changes without a non-empty homepage URL being supplied. -/
theorem update_feed_fetched_empty_homepage_overwrites :
    (update_feed_fetched
        ⟨[⟨1, "Feed", "https://u", false, none, none, some "https://old"⟩],
         [], 1⟩
        "2024-01-01T00:00:00+00:00" 1 none (some "")).feeds =
      [⟨1, "Feed", "https://u", false, some "2024-01-01T00:00:00+00:00",
        none, some ""⟩] ∧
    some "" ≠ some "https://old" := by
  exact ⟨rfl, by decide⟩

/-- **C4**, counterexample to the claim as stated: lobste.rs is a known
discussion-hosting origin, yet for a lobste.rs feed whose entry
identifier is a `lobste.rs/s/` story URL and whose primary link is that
very URL (a self-discussion post) the resolver returns the identifier,
not none — the self-discussion guard exists only in the
news.ycombinator.com branch. -/
theorem lobsters_self_discussion_returns_id :
    extract_discussion_link
        ⟨1, "Lobsters", "https://lobste.rs/rss", true, none, none, none⟩
        ⟨"https://lobste.rs/s/abc123", none,
         [⟨"https://lobste.rs/s/abc123", none⟩], none, none⟩
        none "https://lobste.rs/s/abc123" =
      some "https://lobste.rs/s/abc123" := by
  decide

/-- **C4** (amended: the self-discussion exception holds for the
news.ycombinator.com origin; the lobste.rs branch has no such guard).
For a feed with `has_discussion` set whose source URL is a
news.ycombinator.com URL, when the entry identifier is an HN item URL
and the primary link is that same identifier, the resolver returns
none. -/
theorem hn_self_discussion_returns_none (feed : Feed) (entry : Entry)
    (cm : Option String) (main_link : String)
    (hDisc : feed.has_discussion = true)
    (hUrl : strContains feed.url "news.ycombinator.com" = true)
    (hId : strContains entry.id "news.ycombinator.com/item?id=" = true)
    (hSelf : main_link = entry.id) :
    extract_discussion_link feed entry cm main_link = none := by
  simp [extract_discussion_link, hDisc, hUrl, hSelf, hId]

/-- Witness for `hn_self_discussion_returns_none` at a concrete
self-discussion ("Ask HN") entry. -/
theorem hn_self_discussion_returns_none_witness :
    ((⟨1, "HN", "https://news.ycombinator.com/rss", true, none, none,
        none⟩ : Feed).has_discussion = true ∧
      strContains "https://news.ycombinator.com/rss"
        "news.ycombinator.com" = true ∧
      strContains "https://news.ycombinator.com/item?id=12345"
        "news.ycombinator.com/item?id=" = true) ∧
    extract_discussion_link
        ⟨1, "HN", "https://news.ycombinator.com/rss", true, none, none,
         none⟩
        ⟨"https://news.ycombinator.com/item?id=12345", none,
         [⟨"https://news.ycombinator.com/item?id=12345", none⟩], none,
         none⟩
        none "https://news.ycombinator.com/item?id=12345" = none :=
  ⟨⟨rfl, by decide, by decide⟩,
    hn_self_discussion_returns_none _ _ _ _ rfl (by decide) (by decide) rfl⟩

/-- **C7**: the resolver equals the spec's ordered strategy chain — the
`hasDiscussion` gate first (none regardless of content when false), then
the source-specific identity heuristic, then (only when the identity
heuristic did not decide) the extracted comments URL for the primary
link, then (only when that is absent) the case-insensitive
replies/comments relation-tag scan, else none. -/
theorem extract_discussion_link_eq_resolverSpec (feed : Feed)
    (entry : Entry) (cm : Option String) (main_link : String) :
    extract_discussion_link feed entry cm main_link =
      resolverSpec feed entry cm main_link := by
  simp only [extract_discussion_link, resolverSpec, identityDecision]
  split_ifs <;> rfl

/-- **C2**: single-flight refresh.  If the flag is already held,
`refresh_all_feeds` returns success immediately with the state (hence
the store) untouched — no second pass starts.  If it acquires the flag,
the flag is false again on return; in particular even when the cycle as
a whole fails (a failing feed-list read, `listErr = some e`, makes the
cycle return that error) the flag does not remain set. -/
theorem refresh_all_feeds_single_flight (st : FetcherState) (now : String)
    (listErr : Option String) (fetch : Feed → FetchOutcome) :
    (st.refreshing = true →
      refresh_all_feeds st now listErr fetch = (st, Except.ok ())) ∧
    (st.refreshing = false →
      (refresh_all_feeds st now listErr fetch).1.refreshing = false) ∧
    (∀ e, listErr = some e → st.refreshing = false →
      (refresh_all_feeds st now listErr fetch).2 = Except.error e ∧
      (refresh_all_feeds st now listErr fetch).1.refreshing = false) := by
  refine ⟨fun h => ?_, fun h => ?_, fun e he h => ?_⟩
  · simp [refresh_all_feeds, h]
  · simp [refresh_all_feeds, h]
  · subst he
    simp [refresh_all_feeds, h, do_refresh_all]

/-- Witness for `refresh_all_feeds_single_flight`: a cycle whose feed
listing fails returns that error yet leaves the flag cleared. -/
theorem refresh_all_feeds_single_flight_witness :
    (⟨emptyDb, false⟩ : FetcherState).refreshing = false ∧
    (refresh_all_feeds ⟨emptyDb, false⟩ "2024-01-01T00:00:00+00:00"
        (some "db locked") (fun _ => Except.ok ([], []))).2 =
      Except.error "db locked" ∧
    (refresh_all_feeds ⟨emptyDb, false⟩ "2024-01-01T00:00:00+00:00"
        (some "db locked") (fun _ => Except.ok ([], []))).1.refreshing =
      false :=
  ⟨rfl,
    (refresh_all_feeds_single_flight ⟨emptyDb, false⟩
        "2024-01-01T00:00:00+00:00" (some "db locked")
        (fun _ => Except.ok ([], []))).2.2 "db locked" rfl rfl |>.1,
    (refresh_all_feeds_single_flight ⟨emptyDb, false⟩
        "2024-01-01T00:00:00+00:00" (some "db locked")
        (fun _ => Except.ok ([], []))).2.2 "db locked" rfl rfl |>.2⟩

/-! ### Helper lemmas for the comments extractor -/

theorem find?_map_keyUpdate_self (m : List (String × String)) (a v : String) :
    List.find? (fun p => p.1 == a)
        (m.map (fun q => if q.1 == a then (a, v) else q)) =
      (List.find? (fun q => q.1 == a) m).map (fun _ => (a, v)) := by
  induction m with
  | nil => rfl
  | cons q m ih =>
    rw [List.map_cons]
    by_cases hq : q.1 = a
    · have hb : (q.1 == a) = true := beq_iff_eq.mpr hq
      have e1 : (if q.1 == a then (a, v) else q) = (a, v) := if_pos hb
      have e2 : List.find? (fun p => p.1 == a)
          ((a, v) :: m.map (fun q => if q.1 == a then (a, v) else q)) =
            some (a, v) :=
        List.find?_cons_of_pos _ (by simp)
      have e3 : List.find? (fun q => q.1 == a) (q :: m) = some q :=
        List.find?_cons_of_pos _ hb
      rw [e1, e2, e3]
      rfl
    · have hb : (q.1 == a) = false := beq_eq_false_iff_ne.mpr hq
      have e1 : (if q.1 == a then (a, v) else q) = q := if_neg (by simp [hb])
      have e2 : List.find? (fun p => p.1 == a)
          (q :: m.map (fun q => if q.1 == a then (a, v) else q)) =
            List.find? (fun p => p.1 == a)
              (m.map (fun q => if q.1 == a then (a, v) else q)) :=
        List.find?_cons_of_neg _ (by simp [hb])
      have e3 : List.find? (fun q => q.1 == a) (q :: m) =
          List.find? (fun q => q.1 == a) m :=
        List.find?_cons_of_neg _ (by simp [hb])
      rw [e1, e2, e3, ih]

theorem find?_map_keyUpdate_other (m : List (String × String))
    (a v k : String) (hk : k ≠ a) :
    List.find? (fun p => p.1 == k)
        (m.map (fun q => if q.1 == a then (a, v) else q)) =
      List.find? (fun p => p.1 == k) m := by
  induction m with
  | nil => rfl
  | cons q m ih =>
    rw [List.map_cons]
    by_cases hq : q.1 = a
    · have hb : (q.1 == a) = true := beq_iff_eq.mpr hq
      have h1 : (a == k) = false := beq_eq_false_iff_ne.mpr fun h => hk h.symm
      have e1 : (if q.1 == a then (a, v) else q) = (a, v) := if_pos hb
      have e2 : List.find? (fun p => p.1 == k)
          ((a, v) :: m.map (fun q => if q.1 == a then (a, v) else q)) =
            List.find? (fun p => p.1 == k)
              (m.map (fun q => if q.1 == a then (a, v) else q)) :=
        List.find?_cons_of_neg _ (by simp [h1])
      have e3 : List.find? (fun p => p.1 == k) (q :: m) =
          List.find? (fun p => p.1 == k) m :=
        List.find?_cons_of_neg _ (by simp [hq, h1])
      rw [e1, e2, e3, ih]
    · have hb : (q.1 == a) = false := beq_eq_false_iff_ne.mpr hq
      have e1 : (if q.1 == a then (a, v) else q) = q := if_neg (by simp [hb])
      rw [e1]
      by_cases hqk : q.1 = k
      · have hbk : (q.1 == k) = true := beq_iff_eq.mpr hqk
        have e2 : List.find? (fun p => p.1 == k)
            (q :: m.map (fun q => if q.1 == a then (a, v) else q)) =
              some q :=
          List.find?_cons_of_pos _ hbk
        have e3 : List.find? (fun p => p.1 == k) (q :: m) = some q :=
          List.find?_cons_of_pos _ hbk
        rw [e2, e3]
      · have hbk : (q.1 == k) = false := beq_eq_false_iff_ne.mpr hqk
        have e2 : List.find? (fun p => p.1 == k)
            (q :: m.map (fun q => if q.1 == a then (a, v) else q)) =
              List.find? (fun p => p.1 == k)
                (m.map (fun q => if q.1 == a then (a, v) else q)) :=
          List.find?_cons_of_neg _ (by simp [hbk])
        have e3 : List.find? (fun p => p.1 == k) (q :: m) =
            List.find? (fun p => p.1 == k) m :=
          List.find?_cons_of_neg _ (by simp [hbk])
        rw [e2, e3, ih]

theorem lookupMap_insertMap (m : List (String × String)) (a v k : String) :
    lookupMap (insertMap m a v) k =
      if a = k then some v else lookupMap m k := by
  unfold insertMap
  cases hany : m.any (fun p => p.1 == a) with
  | false =>
    rw [if_neg (by simp [hany])]
    unfold lookupMap
    rw [List.find?_append]
    by_cases hak : a = k
    · subst hak
      have hnone : List.find? (fun p => p.1 == a) m = none :=
        List.find?_eq_none.mpr (fun x hx hpx => by
          have hcontra : (m.any fun p => p.1 == a) = true :=
            List.any_eq_true.mpr ⟨x, hx, hpx⟩
          rw [hany] at hcontra
          exact Bool.false_ne_true hcontra)
      have hone : List.find? (fun p => p.1 == a) [(a, v)] = some (a, v) :=
        List.find?_cons_of_pos _ (by simp)
      rw [hnone, hone, if_pos rfl]
      rfl
    · have h1 : (a == k) = false := beq_eq_false_iff_ne.mpr hak
      have hone : List.find? (fun p => p.1 == k) [(a, v)] = none := by
        simp [List.find?_cons, h1]
      rw [hone, Option.or_none, if_neg hak]
  | true =>
    rw [if_pos rfl]
    unfold lookupMap
    by_cases hak : a = k
    · subst hak
      obtain ⟨q, hqm, hq⟩ := List.any_eq_true.mp hany
      have hsome : (List.find? (fun q => q.1 == a) m).isSome = true :=
        List.find?_isSome.mpr ⟨q, hqm, hq⟩
      obtain ⟨q', hq'⟩ := Option.isSome_iff_exists.mp hsome
      rw [find?_map_keyUpdate_self, hq', if_pos rfl]
      rfl
    · rw [find?_map_keyUpdate_other m a v k (fun h => hak h.symm),
        if_neg hak]

theorem lookupMap_foldl_insert (pairs : List (String × String))
    (m : List (String × String)) (k : String) :
    lookupMap (pairs.foldl (fun m p => insertMap m p.1 p.2) m) k =
      ((pairs.filter (fun p => p.1 == k)).getLast?.map Prod.snd).or
        (lookupMap m k) := by
  induction pairs generalizing m with
  | nil => simp
  | cons p rest ih =>
    rw [List.foldl_cons, ih, List.filter_cons, lookupMap_insertMap]
    by_cases hpk : p.1 = k
    · rw [if_pos hpk, if_pos (beq_iff_eq.mpr hpk)]
      rcases hF : (rest.filter (fun p => p.1 == k)).getLast? with _ | q
      · have hF' : rest.filter (fun p => p.1 == k) = [] :=
          List.getLast?_eq_none_iff.mp hF
        rw [hF']
        simp
      · rw [List.getLast?_cons, hF]
        simp
    · rw [if_neg hpk, if_neg (by simp [beq_eq_false_iff_ne.mpr hpk])]

theorem keys_insertMap (m : List (String × String)) (a v : String)
    (h : (m.map Prod.fst).Nodup) :
    ((insertMap m a v).map Prod.fst).Nodup := by
  unfold insertMap
  cases hany : m.any (fun p => p.1 == a) with
  | true =>
    have hkeys : (m.map (fun q => if q.1 == a then (a, v) else q)).map
        Prod.fst = m.map Prod.fst := by
      rw [List.map_map]
      apply List.map_congr_left
      intro q _
      show Prod.fst (if q.1 == a then (a, v) else q) = Prod.fst q
      by_cases hqa : q.1 = a
      · have hb : (q.1 == a) = true := beq_iff_eq.mpr hqa
        rw [if_pos hb]
        exact hqa.symm
      · rw [if_neg (by simp [beq_eq_false_iff_ne.mpr hqa])]
    rw [if_pos rfl, hkeys]
    exact h
  | false =>
    have hnotin : a ∉ m.map Prod.fst := by
      intro hmem
      obtain ⟨q, hqm, hqa⟩ := List.mem_map.mp hmem
      have hbeq : (q.1 == a) = true := beq_iff_eq.mpr hqa
      have hcontra : (m.any fun p => p.1 == a) = true :=
        List.any_eq_true.mpr ⟨q, hqm, hbeq⟩
      rw [hany] at hcontra
      exact Bool.false_ne_true hcontra
    simp only [Bool.false_eq_true, if_false, List.map_append]
    rw [List.nodup_append]
    exact ⟨h, List.nodup_singleton a, by
      intro x hx hx1
      have : x = a := by simpa using hx1
      exact hnotin (this ▸ hx)⟩

theorem keys_foldl_insert (pairs : List (String × String)) :
    ∀ (m : List (String × String)), (m.map Prod.fst).Nodup →
      ((pairs.foldl (fun m p => insertMap m p.1 p.2) m).map Prod.fst).Nodup := by
  induction pairs with
  | nil => intro m hm; simpa using hm
  | cons p rest ih =>
    intro m hm
    exact ih _ (keys_insertMap m p.1 p.2 hm)

theorem mem_insertMap (m : List (String × String)) (a v : String)
    (q : String × String) (h : q ∈ insertMap m a v) :
    q = (a, v) ∨ q ∈ m := by
  unfold insertMap at h
  cases hany : m.any (fun p => p.1 == a) with
  | true =>
    rw [if_pos hany] at h
    obtain ⟨r, hr, hfr⟩ := List.mem_map.mp h
    by_cases hra : (r.1 == a) = true
    · rw [if_pos hra] at hfr; exact Or.inl hfr.symm
    · rw [if_neg hra] at hfr; exact Or.inr (hfr ▸ hr)
  | false =>
    rw [if_neg (by simp [hany])] at h
    rcases List.mem_append.mp h with hm | hs
    · exact Or.inr hm
    · exact Or.inl (by simpa using hs)

theorem mem_foldl_insert (pairs : List (String × String)) :
    ∀ (m : List (String × String)) (q : String × String),
      q ∈ pairs.foldl (fun m p => insertMap m p.1 p.2) m →
      q ∈ m ∨ q ∈ pairs := by
  induction pairs with
  | nil => intro m q h; exact Or.inl h
  | cons p rest ih =>
    intro m q h
    rcases ih _ q h with hmem | hrest
    · rcases mem_insertMap m p.1 p.2 q hmem with heq | hm
      · exact Or.inr (by simp [heq])
      · exact Or.inl hm
    · exact Or.inr (List.mem_cons_of_mem _ hrest)

theorem dropWhile_idem {α : Type} (p : α → Bool) (l : List α) :
    List.dropWhile p (List.dropWhile p l) = List.dropWhile p l := by
  induction l with
  | nil => rfl
  | cons c rest ih =>
    cases hc : p c with
    | true => simp [List.dropWhile_cons, hc, ih]
    | false => simp [List.dropWhile_cons, hc]

theorem dropWhile_eq_self_mono {α : Type} (p : α → Bool) {t u : List α}
    (htu : t <+: u) (hu : List.dropWhile p u = u) :
    List.dropWhile p t = t := by
  obtain ⟨r, rfl⟩ := htu
  cases t with
  | nil => rfl
  | cons c t' =>
    have hc : p c = false := by
      cases hpc : p c with
      | false => rfl
      | true =>
        exfalso
        rw [List.cons_append, List.dropWhile_cons, hpc, if_pos rfl] at hu
        have hlen : (List.dropWhile p (t' ++ r)).length =
            (t' ++ r).length + 1 := by
          rw [hu, List.length_cons]
        have hle : (List.dropWhile p (t' ++ r)).length ≤ (t' ++ r).length :=
          (List.dropWhile_sublist p).length_le
        omega
    rw [List.dropWhile_cons, hc]
    simp

theorem trimChars_idem (l : List Char) :
    trimChars (trimChars l) = trimChars l := by
  unfold trimChars
  have hv : ((l.dropWhile Char.isWhitespace).reverse.dropWhile
      Char.isWhitespace) <:+ (l.dropWhile Char.isWhitespace).reverse :=
    List.dropWhile_suffix _
  have ht : ((l.dropWhile Char.isWhitespace).reverse.dropWhile
      Char.isWhitespace).reverse <+: (l.dropWhile Char.isWhitespace) :=
    List.reverse_suffix.mp (by simpa using hv)
  have h1 : List.dropWhile Char.isWhitespace
      ((l.dropWhile Char.isWhitespace).reverse.dropWhile
        Char.isWhitespace).reverse =
      ((l.dropWhile Char.isWhitespace).reverse.dropWhile
        Char.isWhitespace).reverse :=
    dropWhile_eq_self_mono Char.isWhitespace ht (dropWhile_idem _ l)
  rw [h1, List.reverse_reverse, dropWhile_idem]

theorem extract_xml_element_trimmed {xml : List Char} {tag : String}
    {out : List Char} (h : extract_xml_element xml tag = some out) :
    trimChars out = out := by
  simp only [extract_xml_element] at h
  rcases h1 : findSub (("<" ++ tag ++ ">").toList) xml with _ | i
  · rw [h1, Option.none_bind] at h
    exact absurd h (by simp)
  · rw [h1, Option.some_bind] at h
    rcases h2 : findSub (("</" ++ tag ++ ">").toList)
        (xml.drop (i + ("<" ++ tag ++ ">").toList.length)) with _ | j
    · rw [h2] at h
      exact absurd h (by simp)
    · rw [h2, Option.map_some'] at h
      have hout : trimChars ((xml.drop
          (i + ("<" ++ tag ++ ">").toList.length)).take j) = out :=
        Option.some.inj h
      rw [← hout, trimChars_idem]

/-- **C8**: the comments extractor is total and never fails — it is a
function returning a mapping for every byte sequence; invalid UTF-8
yields the empty mapping; an item block with no closing delimiter is
processed as the whole remainder (`find("</item>").unwrap_or(len)`); and
every recorded pair comes from an item block in which both a link value
and a comments value were found, each value trimmed of surrounding
whitespace (trimming is idempotent on the recorded values). -/
theorem extract_comments_total_guarded (bytes : List Nat) :
    (utf8Decode? bytes = none → extract_comments_from_xml bytes = []) ∧
    (∀ blk : List Char, findSub ("</item>".toList) blk = none →
      blk.take ((findSub ("</item>".toList) blk).getD blk.length) = blk) ∧
    (∀ q ∈ extract_comments_from_xml bytes,
      ∃ s, utf8Decode? bytes = some s ∧
        ∃ blk ∈ itemBlocks s, ∃ lc cc,
          extract_xml_element blk "link" = some lc ∧
          extract_xml_element blk "comments" = some cc ∧
          q = (String.mk lc, String.mk cc) ∧
          trimChars lc = lc ∧ trimChars cc = cc) := by
  refine ⟨fun h => ?_, fun blk h => ?_, fun q hq => ?_⟩
  · unfold extract_comments_from_xml
    rw [h]
  · rw [h, Option.getD_none, List.take_length]
  · unfold extract_comments_from_xml at hq
    rcases hs : utf8Decode? bytes with _ | s
    · rw [hs] at hq; exact absurd hq (List.not_mem_nil q)
    · rw [hs] at hq
      rcases mem_foldl_insert (itemPairs s) [] q hq with hnil | hpairs
      · exact absurd hnil (List.not_mem_nil q)
      · obtain ⟨blk, hblk, hpair⟩ := List.mem_filterMap.mp hpairs
        refine ⟨s, rfl, blk, hblk, ?_⟩
        unfold itemPair at hpair
        rcases hl : extract_xml_element blk "link" with _ | lc
        · rw [hl] at hpair; exact absurd hpair (by simp)
        · rcases hc : extract_xml_element blk "comments" with _ | cc
          · rw [hl, hc] at hpair; exact absurd hpair (by simp)
          · rw [hl, hc] at hpair
            refine ⟨lc, cc, rfl, rfl, ?_, extract_xml_element_trimmed hl,
              extract_xml_element_trimmed hc⟩
            simpa using hpair.symm

/-- Witness for `extract_comments_total_guarded`: the byte sequence
`FF FE 00 01` is not valid UTF-8 and yields the empty mapping. -/
theorem extract_comments_total_guarded_witness :
    utf8Decode? [255, 254, 0, 1] = none ∧
    extract_comments_from_xml [255, 254, 0, 1] = [] :=
  ⟨by decide,
    (extract_comments_total_guarded [255, 254, 0, 1]).1 (by decide)⟩

/-- **C10**: when several item blocks share the same link value (each
with a comments value), the extractor's mapping holds, for that link,
the comments value of the *last* such block in document order — the
lookup equals the last matching pair of the document-order pair list —
and the mapping's keys are pairwise distinct, so it never holds more
than one comments value per link. -/
theorem extract_comments_last_item_wins (bytes : List Nat) (l : String) :
    lookupMap (extract_comments_from_xml bytes) l =
      (match utf8Decode? bytes with
       | none => none
       | some s =>
         ((itemPairs s).filter (fun p => p.1 == l)).getLast?.map
           Prod.snd) ∧
    ((extract_comments_from_xml bytes).map Prod.fst).Nodup := by
  constructor
  · unfold extract_comments_from_xml
    rcases hs : utf8Decode? bytes with _ | s
    · simp [lookupMap]
    · rw [lookupMap_foldl_insert]
      simp [lookupMap]
  · unfold extract_comments_from_xml
    rcases hs : utf8Decode? bytes with _ | s
    · simp
    · exact keys_foldl_insert (itemPairs s) [] (by simp)

/-! ### Entry derivation (C9) -/

/-- **C9**: per-entry derivation of `refresh_feed`.  Every stored record
takes its title from the entry with the literal `"Untitled"` fallback,
its primary link from the entry's first outbound link, and its
published time from `published` falling back to `updated`; an entry with
no link yields no record (it is skipped, not stored); and `refresh_feed`
is exactly the fold of `upsert_item` over the records so derived, so
skipped entries are never stored. -/
theorem refresh_feed_entry_derivation (feed : Feed)
    (cmap : List (String × String)) (entry : Entry) :
    (∀ r, entryRecord feed cmap entry = some r →
      r.guid = entry.id ∧
      r.title = entry.title.getD "Untitled" ∧
      (∃ l0, entry.links.head? = some l0 ∧ r.link = l0.href) ∧
      r.published = entry.published.or entry.updated) ∧
    (entry.links = [] → entryRecord feed cmap entry = none) ∧
    (∀ (db : Db) (f2 : Feed) (bytes : List Nat) (entries : List Entry),
      refresh_feed db f2 bytes entries =
        (entries.filterMap
            (entryRecord f2 (extract_comments_from_xml bytes))).foldl
          (fun db r => upsertRecord db f2.id r) db) := by
  refine ⟨?_, ?_, ?_⟩
  · intro r h
    simp only [entryRecord] at h
    rcases hhead : entry.links.head? with _ | l0
    · rw [hhead] at h
      simp at h
    · rw [hhead] at h
      simp only [Option.map_some', Option.getD_some] at h
      by_cases hempty : l0.href = ""
      · rw [if_pos (by simp [hempty])] at h
        exact absurd h (by simp)
      · rw [if_neg (by simp [beq_eq_false_iff_ne.mpr hempty])] at h
        have hr := Option.some.inj h
        subst hr
        exact ⟨rfl, rfl, ⟨l0, rfl, rfl⟩, rfl⟩
  · intro h
    simp only [entryRecord, h]
    rfl
  · intro db f2 bytes entries
    induction entries generalizing db with
    | nil => rfl
    | cons e es ih =>
      simp only [refresh_feed] at ih ⊢
      rw [List.foldl_cons, List.filterMap_cons]
      cases hfe : entryRecord f2 (extract_comments_from_xml bytes) e with
      | none => simp only [hfe]; exact ih _
      | some r => simp only [hfe, List.foldl_cons]; exact ih _

/-- Witness for `refresh_feed_entry_derivation` at a concrete entry with
no title and one link. -/
theorem refresh_feed_entry_derivation_witness :
    entryRecord ⟨1, "Blog", "https://blog.example.com/feed", false, none,
        none, none⟩ []
      ⟨"g1", none, [⟨"https://a.com", none⟩],
        some "2024-02-01T00:00:00+00:00",
        some "2024-01-01T00:00:00+00:00"⟩ =
      some ⟨"g1", "Untitled", "https://a.com", none,
        some "2024-02-01T00:00:00+00:00"⟩ ∧
    ((⟨"g1", "Untitled", "https://a.com", none,
        some "2024-02-01T00:00:00+00:00"⟩ : ItemData).guid = "g1" ∧
      (⟨"g1", "Untitled", "https://a.com", none,
        some "2024-02-01T00:00:00+00:00"⟩ : ItemData).title =
        (Option.getD (none : Option String) "Untitled") ∧
      (∃ l0, ([⟨"https://a.com", none⟩] : List FLink).head? = some l0 ∧
        (⟨"g1", "Untitled", "https://a.com", none,
          some "2024-02-01T00:00:00+00:00"⟩ : ItemData).link = l0.href) ∧
      (⟨"g1", "Untitled", "https://a.com", none,
        some "2024-02-01T00:00:00+00:00"⟩ : ItemData).published =
        (some "2024-02-01T00:00:00+00:00").or
          (some "2024-01-01T00:00:00+00:00")) :=
  ⟨by decide,
    (refresh_feed_entry_derivation
      ⟨1, "Blog", "https://blog.example.com/feed", false, none, none,
        none⟩ []
      ⟨"g1", none, [⟨"https://a.com", none⟩],
        some "2024-02-01T00:00:00+00:00",
        some "2024-01-01T00:00:00+00:00"⟩).1
      ⟨"g1", "Untitled", "https://a.com", none,
        some "2024-02-01T00:00:00+00:00"⟩ (by decide)⟩

/-! ### Pagination (C3) -/

theorem itemLe_total (a b : Item) : (itemLe a b || itemLe b a) = true := by
  unfold itemLe
  rcases ha : a.published with _ | x <;> rcases hb : b.published with _ | y
  · simp only [Bool.or_eq_true, decide_eq_true_eq]
    omega
  · simp
  · simp
  · dsimp only
    by_cases hxy : x = y
    · rw [if_pos hxy, if_pos hxy.symm]
      simp only [Bool.or_eq_true, decide_eq_true_eq]
      omega
    · rw [if_neg hxy, if_neg (Ne.symm hxy)]
      simp only [Bool.or_eq_true, decide_eq_true_eq]
      rcases lt_or_gt_of_ne hxy with h | h
      · exact Or.inr h
      · exact Or.inl h

theorem itemLe_trans (a b c : Item) (hab : itemLe a b = true)
    (hbc : itemLe b c = true) : itemLe a c = true := by
  unfold itemLe at hab hbc ⊢
  rcases ha : a.published with _ | x <;> rcases hb : b.published with _ | y <;>
    rcases hc : c.published with _ | z <;>
    rw [ha, hb] at hab <;> rw [hb, hc] at hbc
  · have h1 : b.id ≤ a.id := of_decide_eq_true hab
    have h2 : c.id ≤ b.id := of_decide_eq_true hbc
    exact decide_eq_true (le_trans h2 h1)
  · exact absurd hbc Bool.false_ne_true
  · exact absurd hab Bool.false_ne_true
  · exact absurd hab Bool.false_ne_true
  · exact absurd hbc Bool.false_ne_true
  · have hab' : (if x = y then decide (b.id ≤ a.id) else decide (y < x)) =
        true := hab
    have hbc' : (if y = z then decide (c.id ≤ b.id) else decide (z < y)) =
        true := hbc
    show (if x = z then decide (c.id ≤ a.id) else decide (z < x)) = true
    by_cases hxy : x = y
    · subst hxy
      rw [if_pos rfl] at hab'
      by_cases hxz : x = z
      · rw [if_pos hxz] at hbc'
        rw [if_pos hxz]
        have h1 : b.id ≤ a.id := of_decide_eq_true hab'
        have h2 : c.id ≤ b.id := of_decide_eq_true hbc'
        exact decide_eq_true (le_trans h2 h1)
      · rw [if_neg hxz] at hbc'
        rw [if_neg hxz]
        exact hbc'
    · rw [if_neg hxy] at hab'
      by_cases hyz : y = z
      · subst hyz
        rw [if_neg hxy]
        exact hab'
      · rw [if_neg hyz] at hbc'
        have h1 : y < x := of_decide_eq_true hab'
        have h2 : z < y := of_decide_eq_true hbc'
        have h3 : z < x := lt_trans h2 h1
        have hxz : ¬x = z := fun he => absurd h3 (by rw [he]; exact lt_irrefl z)
        rw [if_neg hxz]
        exact decide_eq_true h3

/-- **C3**: pagination of `get_items_for_feed`.  For a feed with `N`
stored items, `limit = L` and `offset = O` return exactly
`max 0 (min L (N - O))` items (Nat subtraction is truncated); the
returned items are pairwise ordered by `itemLe` — published descending,
items with no published value after all items that have one, ties broken
by descending id; in particular no item without a published value ever
precedes one with a value; and an offset at or beyond `N` yields the
empty sequence (and is not an error — the operation is total). -/
theorem get_items_for_feed_pagination (db : Db) (fid L O : Nat) :
    (get_items_for_feed db fid L O).length =
      min L (get_item_count_for_feed db fid - O) ∧
    (get_items_for_feed db fid L O).Pairwise
      (fun a b => itemLe a b = true) ∧
    (get_items_for_feed db fid L O).Pairwise
      (fun a b => a.published = none → b.published = none) ∧
    (get_item_count_for_feed db fid ≤ O →
      get_items_for_feed db fid L O = []) := by
  have hsorted : ((db.items.filter
      (fun r => r.feed_id == fid)).mergeSort itemLe).Pairwise
        (fun a b => itemLe a b = true) :=
    List.sorted_mergeSort itemLe_trans itemLe_total _
  have hlen : (get_items_for_feed db fid L O).length =
      min L (get_item_count_for_feed db fid - O) := by
    unfold get_items_for_feed get_item_count_for_feed
    rw [List.length_take, List.length_drop, List.length_mergeSort]
  have hpair : (get_items_for_feed db fid L O).Pairwise
      (fun a b => itemLe a b = true) := by
    unfold get_items_for_feed
    exact List.Pairwise.sublist
      ((List.take_sublist _ _).trans (List.drop_sublist _ _)) hsorted
  refine ⟨hlen, hpair, ?_, ?_⟩
  · refine hpair.imp ?_
    intro a b hle hnone
    rcases hpb : b.published with _ | v
    · rfl
    · unfold itemLe at hle
      rw [hnone, hpb] at hle
      exact absurd hle (by simp)
  · intro h
    apply List.eq_nil_of_length_eq_zero
    rw [hlen, Nat.sub_eq_zero_of_le h]
    exact Nat.min_zero L

/-- Witness for `get_items_for_feed_pagination`: a feed with two stored
items and an offset beyond the count yields the empty page. -/
theorem get_items_for_feed_pagination_witness :
    get_item_count_for_feed
        ⟨[], [⟨1, 7, "g1", "t1", "l1", none, none⟩,
              ⟨2, 7, "g2", "t2", "l2", none,
                some "2024-01-01T00:00:00+00:00"⟩], 3⟩ 7 ≤ 9 ∧
    get_items_for_feed
        ⟨[], [⟨1, 7, "g1", "t1", "l1", none, none⟩,
              ⟨2, 7, "g2", "t2", "l2", none,
                some "2024-01-01T00:00:00+00:00"⟩], 3⟩ 7 10 9 = [] :=
  ⟨by decide,
    (get_items_for_feed_pagination
      ⟨[], [⟨1, 7, "g1", "t1", "l1", none, none⟩,
            ⟨2, 7, "g2", "t2", "l2", none,
              some "2024-01-01T00:00:00+00:00"⟩], 3⟩ 7 10 9).2.2.2
      (by decide)⟩

/-! ### Upsert deduplication (C1) -/

theorem countP_map_overwrite (items : List Item) (afid : Nat) (ag t l : String)
    (d p : Option String) (q : Item → Bool)
    (hq : ∀ r, q (overwriteRow t l d p r) = q r) :
    (items.map (fun r => if keyMatch afid ag r then overwriteRow t l d p r
      else r)).countP q = items.countP q := by
  induction items with
  | nil => rfl
  | cons r rest ih =>
    rw [List.map_cons, List.countP_cons, List.countP_cons, ih]
    congr 1
    by_cases hr : keyMatch afid ag r = true
    · rw [if_pos hr, hq r]
    · rw [if_neg hr]

theorem upsert_item_existing (db : Db) (fid : Nat) (g t l : String)
    (d p : Option String) (h : db.items.any (keyMatch fid g) = true) :
    upsert_item db fid g t l d p =
      { db with items := db.items.map (fun r =>
          if keyMatch fid g r then overwriteRow t l d p r else r) } := by
  unfold upsert_item
  rw [if_pos h]

theorem upsert_item_new (db : Db) (fid : Nat) (g t l : String)
    (d p : Option String) (h : db.items.any (keyMatch fid g) = false) :
    upsert_item db fid g t l d p =
      { db with
        items := db.items ++ [⟨db.nextItemId, fid, g, t, l, d, p⟩],
        nextItemId := db.nextItemId + 1 } := by
  unfold upsert_item
  rw [if_neg (by simp [h])]

theorem countKey_upsert_existing (db : Db) (fid : Nat) (g t l : String)
    (d p : Option String) (h : db.items.any (keyMatch fid g) = true)
    (fid2 : Nat) (g2 : String) :
    countKey (upsert_item db fid g t l d p) fid2 g2 =
      countKey db fid2 g2 := by
  rw [upsert_item_existing db fid g t l d p h]
  exact countP_map_overwrite db.items fid g t l d p (keyMatch fid2 g2)
    (fun r => rfl)

theorem countKey_upsert_new_self (db : Db) (fid : Nat) (g t l : String)
    (d p : Option String) (h : db.items.any (keyMatch fid g) = false) :
    countKey (upsert_item db fid g t l d p) fid g = 1 := by
  rw [upsert_item_new db fid g t l d p h]
  unfold countKey
  show (db.items ++ [(⟨db.nextItemId, fid, g, t, l, d, p⟩ : Item)]).countP
    (keyMatch fid g) = 1
  rw [List.countP_append]
  have h0 : db.items.countP (keyMatch fid g) = 0 :=
    List.countP_eq_zero.mpr (fun r hr hk => by
      have hcontra : db.items.any (keyMatch fid g) = true :=
        List.any_eq_true.mpr ⟨r, hr, hk⟩
      rw [h] at hcontra
      exact Bool.false_ne_true hcontra)
  rw [h0]
  simp [List.countP_cons, keyMatch]

theorem countKey_upsert_new_other (db : Db) (fid : Nat) (g t l : String)
    (d p : Option String) (h : db.items.any (keyMatch fid g) = false)
    (fid2 : Nat) (g2 : String) (hne : ¬(fid = fid2 ∧ g = g2)) :
    countKey (upsert_item db fid g t l d p) fid2 g2 =
      countKey db fid2 g2 := by
  rw [upsert_item_new db fid g t l d p h]
  unfold countKey
  show (db.items ++
    [(⟨db.nextItemId, fid, g, t, l, d, p⟩ : Item)]).countP
    (keyMatch fid2 g2) = db.items.countP (keyMatch fid2 g2)
  rw [List.countP_append]
  have h1 : List.countP (keyMatch fid2 g2)
      [(⟨db.nextItemId, fid, g, t, l, d, p⟩ : Item)] = 0 :=
    List.countP_eq_zero.mpr (fun r hr hk => by
      have hrnew : r = ⟨db.nextItemId, fid, g, t, l, d, p⟩ := by
        simpa using hr
      subst hrnew
      simp [keyMatch] at hk
      exact hne ⟨hk.1, hk.2⟩)
  rw [h1]
  exact Nat.add_zero _

theorem countKey_le_one_upsert (db : Db) (c : UpsertCall)
    (h : ∀ fid g, countKey db fid g ≤ 1) :
    ∀ (fid : Nat) (g : String), countKey (applyCall db c) fid g ≤ 1 := by
  intro fid g
  unfold applyCall
  cases hany : db.items.any (keyMatch c.feed_id c.guid) with
  | true =>
    rw [countKey_upsert_existing db c.feed_id c.guid c.title c.link
      c.discussion_link c.published hany]
    exact h fid g
  | false =>
    by_cases hkey : c.feed_id = fid ∧ c.guid = g
    · obtain ⟨h1, h2⟩ := hkey
      subst h1
      subst h2
      rw [countKey_upsert_new_self db c.feed_id c.guid c.title c.link
        c.discussion_link c.published hany]
    · rw [countKey_upsert_new_other db c.feed_id c.guid c.title c.link
        c.discussion_link c.published hany fid g hkey]
      exact h fid g

theorem countKey_pos_upsert_self (db : Db) (c : UpsertCall) :
    1 ≤ countKey (applyCall db c) c.feed_id c.guid := by
  unfold applyCall
  cases hany : db.items.any (keyMatch c.feed_id c.guid) with
  | true =>
    rw [countKey_upsert_existing db c.feed_id c.guid c.title c.link
      c.discussion_link c.published hany]
    obtain ⟨r, hr, hk⟩ := List.any_eq_true.mp hany
    show 0 < db.items.countP (keyMatch c.feed_id c.guid)
    exact List.countP_pos_iff.mpr ⟨r, hr, hk⟩
  | false =>
    rw [countKey_upsert_new_self db c.feed_id c.guid c.title c.link
      c.discussion_link c.published hany]

theorem countKey_pos_upsert_mono (db : Db) (c : UpsertCall) (fid : Nat)
    (g : String) (h : 1 ≤ countKey db fid g) :
    1 ≤ countKey (applyCall db c) fid g := by
  unfold applyCall
  cases hany : db.items.any (keyMatch c.feed_id c.guid) with
  | true =>
    rw [countKey_upsert_existing db c.feed_id c.guid c.title c.link
      c.discussion_link c.published hany]
    exact h
  | false =>
    rw [upsert_item_new db c.feed_id c.guid c.title c.link
      c.discussion_link c.published hany]
    unfold countKey at h ⊢
    show 1 ≤ (db.items ++ [(⟨db.nextItemId, c.feed_id, c.guid, c.title,
      c.link, c.discussion_link, c.published⟩ : Item)]).countP (keyMatch fid g)
    rw [List.countP_append]
    omega

theorem inv_applyCalls (calls : List UpsertCall) :
    ∀ db : Db, (∀ fid g, countKey db fid g ≤ 1) →
      ∀ (fid : Nat) (g : String), countKey (applyCalls calls db) fid g ≤ 1 := by
  induction calls with
  | nil => intro db h; exact h
  | cons c rest ih =>
    intro db h
    exact ih (applyCall db c) (countKey_le_one_upsert db c h)

theorem pos_applyCalls_mono (calls : List UpsertCall) :
    ∀ (db : Db) (fid : Nat) (g : String), 1 ≤ countKey db fid g →
      1 ≤ countKey (applyCalls calls db) fid g := by
  induction calls with
  | nil => intro db fid g h; exact h
  | cons c rest ih =>
    intro db fid g h
    exact ih _ fid g (countKey_pos_upsert_mono db c fid g h)

theorem pos_applyCalls_mem (calls : List UpsertCall) :
    ∀ (db : Db) (c : UpsertCall), c ∈ calls →
      1 ≤ countKey (applyCalls calls db) c.feed_id c.guid := by
  induction calls with
  | nil => intro db c hc; exact absurd hc (List.not_mem_nil c)
  | cons a rest ih =>
    intro db c hc
    rcases List.mem_cons.mp hc with rfl | hcr
    · exact pos_applyCalls_mono rest (applyCall db c) c.feed_id c.guid
        (countKey_pos_upsert_self db c)
    · exact ih (applyCall db a) c hcr

theorem upsert_item_idem (db : Db) (fid : Nat) (g t l : String)
    (d p : Option String) :
    upsert_item (upsert_item db fid g t l d p) fid g t l d p =
      upsert_item db fid g t l d p := by
  cases hany : db.items.any (keyMatch fid g) with
  | true =>
    rw [upsert_item_existing db fid g t l d p hany]
    have hany2 : (db.items.map (fun r =>
        if keyMatch fid g r then overwriteRow t l d p r else r)).any
          (keyMatch fid g) = true := by
      rw [List.any_map]
      obtain ⟨r, hr, hk⟩ := List.any_eq_true.mp hany
      apply List.any_eq_true.mpr
      refine ⟨r, hr, ?_⟩
      show keyMatch fid g
        (if keyMatch fid g r then overwriteRow t l d p r else r) = true
      rw [if_pos hk]
      exact hk
    rw [upsert_item_existing _ fid g t l d p hany2]
    congr 1
    rw [List.map_map]
    apply List.map_congr_left
    intro r _
    dsimp only [Function.comp]
    by_cases hr : keyMatch fid g r = true
    · rw [if_pos hr,
        if_pos (show keyMatch fid g (overwriteRow t l d p r) = true from hr)]
      rfl
    · rw [if_neg hr, if_neg hr]
  | false =>
    rw [upsert_item_new db fid g t l d p hany]
    have hany2 : ((db.items ++
        [(⟨db.nextItemId, fid, g, t, l, d, p⟩ : Item)]).any
          (keyMatch fid g)) = true := by
      simp [List.any_append, keyMatch]
    rw [upsert_item_existing _ fid g t l d p hany2]
    congr 1
    rw [List.map_append]
    congr 1
    · conv_rhs => rw [← List.map_id db.items]
      apply List.map_congr_left
      intro r hr
      have hk : keyMatch fid g r = false := by
        cases hkr : keyMatch fid g r with
        | false => rfl
        | true =>
          have hcontra : db.items.any (keyMatch fid g) = true :=
            List.any_eq_true.mpr ⟨r, hr, hkr⟩
          rw [hany] at hcontra
          exact absurd hcontra Bool.false_ne_true
      rw [if_neg (by simp [hk])]
      rfl
    · rw [List.map_cons, List.map_nil]
      congr 1
      rw [if_pos (by simp [keyMatch])]
      rfl

/-- **C1**: deduplicating upsert.  Starting from the empty store, after
any sequence of `upsert_item` calls there is at most one item row per
`(feedId, guid)` key, and exactly one for every key that was upserted
(so re-upserting never duplicates); an `upsert_item` whose key already
exists rewrites only title/link/discussionLink/published of the
matching row in place — ids, row order, the feeds table, the rowid
counter and every per-feed item count are unchanged; and `upsert_item`
is idempotent: calling it twice with identical arguments leaves the
store exactly as one call does. -/
theorem upsert_item_dedup_idempotent :
    (∀ (calls : List UpsertCall) (fid : Nat) (g : String),
      countKey (applyCalls calls emptyDb) fid g ≤ 1 ∧
      ((∃ c ∈ calls, c.feed_id = fid ∧ c.guid = g) →
        countKey (applyCalls calls emptyDb) fid g = 1)) ∧
    (∀ (db : Db) (fid : Nat) (g t l : String) (d p : Option String),
      db.items.any (keyMatch fid g) = true →
      (upsert_item db fid g t l d p).items =
        db.items.map (fun r =>
          if keyMatch fid g r then overwriteRow t l d p r else r) ∧
      (upsert_item db fid g t l d p).nextItemId = db.nextItemId ∧
      (upsert_item db fid g t l d p).feeds = db.feeds ∧
      ∀ fid2 : Nat,
        get_item_count_for_feed (upsert_item db fid g t l d p) fid2 =
          get_item_count_for_feed db fid2) ∧
    (∀ (db : Db) (fid : Nat) (g t l : String) (d p : Option String),
      upsert_item (upsert_item db fid g t l d p) fid g t l d p =
        upsert_item db fid g t l d p) := by
  refine ⟨?_, ?_, upsert_item_idem⟩
  · intro calls fid g
    have hInv : ∀ (fid : Nat) (g : String),
        countKey (applyCalls calls emptyDb) fid g ≤ 1 :=
      inv_applyCalls calls emptyDb (fun _ _ => Nat.zero_le 1)
    refine ⟨hInv fid g, ?_⟩
    rintro ⟨c, hc, hcf, hcg⟩
    have hpos := pos_applyCalls_mem calls emptyDb c hc
    rw [hcf, hcg] at hpos
    exact le_antisymm (hInv fid g) hpos
  · intro db fid g t l d p h
    rw [upsert_item_existing db fid g t l d p h]
    refine ⟨rfl, rfl, rfl, fun fid2 => ?_⟩
    show ((db.items.map (fun r =>
        if keyMatch fid g r then overwriteRow t l d p r else r)).filter
          (fun r => r.feed_id == fid2)).length =
      (db.items.filter (fun r => r.feed_id == fid2)).length
    rw [← List.countP_eq_length_filter, ← List.countP_eq_length_filter]
    exact countP_map_overwrite db.items fid g t l d p
      (fun r => r.feed_id == fid2) (fun r => rfl)

/-- Witness for `upsert_item_dedup_idempotent`: two identical calls on
the empty store leave exactly one row for the key. -/
theorem upsert_item_dedup_idempotent_witness :
    (∃ c ∈ [(⟨7, "g1", "T", "L", none, none⟩ : UpsertCall),
            ⟨7, "g1", "T", "L", none, none⟩],
      c.feed_id = 7 ∧ c.guid = "g1") ∧
    countKey (applyCalls [⟨7, "g1", "T", "L", none, none⟩,
        ⟨7, "g1", "T", "L", none, none⟩] emptyDb) 7 "g1" = 1 :=
  ⟨by decide,
    (upsert_item_dedup_idempotent.1 [⟨7, "g1", "T", "L", none, none⟩,
        ⟨7, "g1", "T", "L", none, none⟩] 7 "g1").2 (by decide)⟩

/-! ### Per-feed error isolation in the refresh cycle (C6) -/

theorem find?_stamp (fid : Nat) (stamp : Feed → Feed)
    (hid : ∀ f, (stamp f).id = f.id) :
    ∀ l : List Feed,
      (List.find? (fun f => f.id == fid)
          (l.map (fun f => if f.id == fid then stamp f else f)) =
        (List.find? (fun f => f.id == fid) l).map stamp) ∧
      (∀ k, k ≠ fid →
        List.find? (fun f => f.id == k)
            (l.map (fun f => if f.id == fid then stamp f else f)) =
          List.find? (fun f => f.id == k) l) := by
  intro l
  induction l with
  | nil => exact ⟨rfl, fun k _ => rfl⟩
  | cons q m ih =>
    constructor
    · rw [List.map_cons]
      by_cases hq : q.id = fid
      · have hb : (q.id == fid) = true := beq_iff_eq.mpr hq
        have e1 : (if q.id == fid then stamp q else q) = stamp q := if_pos hb
        have e2 : List.find? (fun f => f.id == fid)
            (stamp q :: m.map (fun f => if f.id == fid then stamp f else f)) =
              some (stamp q) :=
          List.find?_cons_of_pos _ (by
            show ((stamp q).id == fid) = true
            rw [hid q]
            exact hb)
        have e3 : List.find? (fun f => f.id == fid) (q :: m) = some q :=
          List.find?_cons_of_pos _ hb
        rw [e1, e2, e3, Option.map_some']
      · have hb : (q.id == fid) = false := beq_eq_false_iff_ne.mpr hq
        have e1 : (if q.id == fid then stamp q else q) = q :=
          if_neg (by simp [hb])
        have e2 : List.find? (fun f => f.id == fid)
            (q :: m.map (fun f => if f.id == fid then stamp f else f)) =
              List.find? (fun f => f.id == fid)
                (m.map (fun f => if f.id == fid then stamp f else f)) :=
          List.find?_cons_of_neg _ (by simp [hb])
        have e3 : List.find? (fun f => f.id == fid) (q :: m) =
            List.find? (fun f => f.id == fid) m :=
          List.find?_cons_of_neg _ (by simp [hb])
        rw [e1, e2, e3, ih.1]
    · intro k hk
      rw [List.map_cons]
      by_cases hq : q.id = fid
      · have hb : (q.id == fid) = true := beq_iff_eq.mpr hq
        have e1 : (if q.id == fid then stamp q else q) = stamp q := if_pos hb
        have hbk : ((stamp q).id == k) = false := by
          rw [hid q, hq]
          exact beq_eq_false_iff_ne.mpr (fun he => hk he.symm)
        have hqk : (q.id == k) = false := by
          rw [hq]
          exact beq_eq_false_iff_ne.mpr (fun he => hk he.symm)
        have e2 : List.find? (fun f => f.id == k)
            (stamp q :: m.map (fun f => if f.id == fid then stamp f else f)) =
              List.find? (fun f => f.id == k)
                (m.map (fun f => if f.id == fid then stamp f else f)) :=
          List.find?_cons_of_neg _ (by simp [hbk])
        have e3 : List.find? (fun f => f.id == k) (q :: m) =
            List.find? (fun f => f.id == k) m :=
          List.find?_cons_of_neg _ (by simp [hqk])
        rw [e1, e2, e3, ih.2 k hk]
      · have hb : (q.id == fid) = false := beq_eq_false_iff_ne.mpr hq
        have e1 : (if q.id == fid then stamp q else q) = q :=
          if_neg (by simp [hb])
        rw [e1]
        by_cases hqk : q.id = k
        · have hbk : (q.id == k) = true := beq_iff_eq.mpr hqk
          have e2 : List.find? (fun f => f.id == k)
              (q :: m.map (fun f => if f.id == fid then stamp f else f)) =
                some q :=
            List.find?_cons_of_pos _ hbk
          have e3 : List.find? (fun f => f.id == k) (q :: m) = some q :=
            List.find?_cons_of_pos _ hbk
          rw [e2, e3]
        · have hbk : (q.id == k) = false := beq_eq_false_iff_ne.mpr hqk
          have e2 : List.find? (fun f => f.id == k)
              (q :: m.map (fun f => if f.id == fid then stamp f else f)) =
                List.find? (fun f => f.id == k)
                  (m.map (fun f => if f.id == fid then stamp f else f)) :=
            List.find?_cons_of_neg _ (by simp [hbk])
          have e3 : List.find? (fun f => f.id == k) (q :: m) =
              List.find? (fun f => f.id == k) m :=
            List.find?_cons_of_neg _ (by simp [hbk])
          rw [e2, e3, ih.2 k hk]

theorem upsert_item_feeds (db : Db) (fid : Nat) (g t l : String)
    (d p : Option String) :
    (upsert_item db fid g t l d p).feeds = db.feeds := by
  cases hany : db.items.any (keyMatch fid g) with
  | true => rw [upsert_item_existing db fid g t l d p hany]
  | false => rw [upsert_item_new db fid g t l d p hany]

theorem refresh_feed_feeds (feed : Feed) (bytes : List Nat) :
    ∀ (entries : List Entry) (db : Db),
      (refresh_feed db feed bytes entries).feeds = db.feeds := by
  intro entries
  induction entries with
  | nil => intro db; rfl
  | cons e es ih =>
    intro db
    simp only [refresh_feed] at ih ⊢
    rw [List.foldl_cons]
    cases hfe : entryRecord feed (extract_comments_from_xml bytes) e with
    | none => simp only [hfe]; exact ih db
    | some r =>
      simp only [hfe]
      rw [ih (upsertRecord db feed.id r)]
      exact upsert_item_feeds db feed.id r.guid r.title r.link
        r.discussion_link r.published

theorem processFeed_feeds (now : String) (fetch : Feed → FetchOutcome)
    (db : Db) (f : Feed) :
    (processFeed now fetch db f).feeds =
      db.feeds.map (fun g =>
        if g.id == f.id then
          stampFeed now (outcomeError (fetch f)) none g
        else g) := by
  unfold processFeed
  cases hfe : fetch f with
  | error e => rfl
  | ok pr =>
    obtain ⟨bytes, entries⟩ := pr
    show ((refresh_feed db f bytes entries).feeds.map
        (fun g => if g.id == f.id then stampFeed now none none g else g)) =
      db.feeds.map (fun g => if g.id == f.id then stampFeed now none none g
        else g)
    rw [refresh_feed_feeds f bytes entries db]

theorem processFeed_items_error (now : String) (fetch : Feed → FetchOutcome)
    (db : Db) (f : Feed) (e : String) (h : fetch f = Except.error e) :
    (processFeed now fetch db f).items = db.items := by
  unfold processFeed
  rw [h]
  rfl

theorem findFeed_processFeed_self (now : String)
    (fetch : Feed → FetchOutcome) (db : Db) (f : Feed) :
    findFeed (processFeed now fetch db f) f.id =
      (findFeed db f.id).map
        (stampFeed now (outcomeError (fetch f)) none) := by
  unfold findFeed
  rw [processFeed_feeds now fetch db f]
  exact (find?_stamp f.id (stampFeed now (outcomeError (fetch f)) none)
    (fun g => rfl) db.feeds).1

theorem findFeed_processFeed_other (now : String)
    (fetch : Feed → FetchOutcome) (db : Db) (f : Feed) (k : Nat)
    (hk : k ≠ f.id) :
    findFeed (processFeed now fetch db f) k = findFeed db k := by
  unfold findFeed
  rw [processFeed_feeds now fetch db f]
  exact (find?_stamp f.id (stampFeed now (outcomeError (fetch f)) none)
    (fun g => rfl) db.feeds).2 k hk

theorem findFeed_processFeed_isSome (now : String)
    (fetch : Feed → FetchOutcome) (db : Db) (f : Feed) (k : Nat) :
    (findFeed (processFeed now fetch db f) k).isSome =
      (findFeed db k).isSome := by
  by_cases hk : k = f.id
  · subst hk
    rw [findFeed_processFeed_self now fetch db f]
    cases findFeed db f.id <;> rfl
  · rw [findFeed_processFeed_other now fetch db f k hk]

theorem findFeed_foldl_other (now : String) (fetch : Feed → FetchOutcome) :
    ∀ (l : List Feed) (db : Db) (k : Nat), (∀ g ∈ l, g.id ≠ k) →
      findFeed (l.foldl (processFeed now fetch) db) k = findFeed db k := by
  intro l
  induction l with
  | nil => intro db k _; rfl
  | cons a rest ih =>
    intro db k h
    rw [List.foldl_cons,
      ih _ k (fun g hg => h g (List.mem_cons_of_mem a hg)),
      findFeed_processFeed_other now fetch db a k
        (Ne.symm (h a (List.mem_cons_self a rest)))]

theorem foldl_processFeed_status (now : String)
    (fetch : Feed → FetchOutcome) :
    ∀ (l : List Feed) (db : Db), (l.map Feed.id).Nodup →
      (∀ f ∈ l, (findFeed db f.id).isSome = true) →
      ∀ f ∈ l, ∃ f',
        findFeed (l.foldl (processFeed now fetch) db) f.id = some f' ∧
        f'.last_fetched = some now ∧
        f'.last_error = outcomeError (fetch f) := by
  intro l
  induction l with
  | nil => intro db _ _ f hf; exact absurd hf (List.not_mem_nil f)
  | cons a rest ih =>
    intro db hnd hsome f hf
    obtain ⟨hanotin, hndrest⟩ :
        (∀ x ∈ rest, ¬x.id = a.id) ∧ (rest.map Feed.id).Nodup := by
      simpa using hnd
    rw [List.foldl_cons]
    rcases List.mem_cons.mp hf with hfa | hfrest
    · subst hfa
      obtain ⟨g, hg⟩ := Option.isSome_iff_exists.mp
        (hsome f (List.mem_cons_self f rest))
      have h1 : findFeed (processFeed now fetch db f) f.id =
          some (stampFeed now (outcomeError (fetch f)) none g) := by
        rw [findFeed_processFeed_self now fetch db f, hg, Option.map_some']
      have h2 : findFeed (rest.foldl (processFeed now fetch)
          (processFeed now fetch db f)) f.id =
            some (stampFeed now (outcomeError (fetch f)) none g) := by
        rw [findFeed_foldl_other now fetch rest (processFeed now fetch db f)
          f.id hanotin, h1]
      exact ⟨_, h2, rfl, rfl⟩
    · refine ih (processFeed now fetch db a) hndrest
        (fun f' hf' => ?_) f hfrest
      rw [findFeed_processFeed_isSome now fetch db a f'.id]
      exact hsome f' (List.mem_cons_of_mem a hf')

/-- **C6**: per-feed error isolation in one refresh cycle.  With every
feed id distinct, a cycle over the feed snapshot returns success as a
whole; every feed in the snapshot — the failing ones and all the others
— ends the cycle with a fresh last-fetched stamp and with last-error
equal to exactly its own outcome (the error text for a failed
fetch/parse, cleared on success), so every other feed is still
processed; and the processing step of a feed whose fetch or parse fails
changes no item rows at all and no feed row other than its own. -/
theorem do_refresh_all_error_isolation (db : Db) (now : String)
    (fetch : Feed → FetchOutcome)
    (hnd : (db.feeds.map Feed.id).Nodup) :
    (do_refresh_all db now none fetch).2 = Except.ok () ∧
    (∀ feed ∈ db.feeds, ∃ f',
      findFeed (do_refresh_all db now none fetch).1 feed.id = some f' ∧
      f'.last_fetched = some now ∧
      f'.last_error = outcomeError (fetch feed)) ∧
    (∀ (db2 : Db) (f : Feed) (e : String), fetch f = Except.error e →
      (processFeed now fetch db2 f).items = db2.items ∧
      ∀ k, k ≠ f.id →
        findFeed (processFeed now fetch db2 f) k = findFeed db2 k) := by
  refine ⟨rfl, ?_, ?_⟩
  · intro feed hfeed
    have hsome : ∀ f ∈ db.feeds, (findFeed db f.id).isSome = true := by
      intro f hf
      unfold findFeed
      exact List.find?_isSome.mpr ⟨f, hf, by simp⟩
    exact foldl_processFeed_status now fetch db.feeds db hnd hsome feed hfeed
  · intro db2 f e hfe
    exact ⟨processFeed_items_error now fetch db2 f e hfe,
      fun k hk => findFeed_processFeed_other now fetch db2 f k hk⟩

/-- Witness for `do_refresh_all_error_isolation`: two feeds, the first
failing with "boom"; the cycle records the error on feed 1. -/
theorem do_refresh_all_error_isolation_witness :
    ((([⟨1, "A", "https://a.example/rss", false, none, none, none⟩,
        ⟨2, "B", "https://b.example/rss", false, none, none, none⟩] :
          List Feed).map Feed.id).Nodup ∧
      (⟨1, "A", "https://a.example/rss", false, none, none, none⟩ : Feed) ∈
        ([⟨1, "A", "https://a.example/rss", false, none, none, none⟩,
          ⟨2, "B", "https://b.example/rss", false, none, none, none⟩] :
            List Feed)) ∧
    (∃ f', findFeed
        (do_refresh_all
          ⟨[⟨1, "A", "https://a.example/rss", false, none, none, none⟩,
            ⟨2, "B", "https://b.example/rss", false, none, none, none⟩],
           [], 1⟩
          "2024-01-01T00:00:00+00:00" none
          (fun f => if f.id = 1 then Except.error "boom"
            else Except.ok ([], []))).1
        (⟨1, "A", "https://a.example/rss", false, none, none, none⟩ :
          Feed).id = some f' ∧
      f'.last_fetched = some "2024-01-01T00:00:00+00:00" ∧
      f'.last_error = outcomeError
        ((fun f => if f.id = 1 then Except.error "boom"
          else Except.ok ([], []))
          (⟨1, "A", "https://a.example/rss", false, none, none, none⟩ :
            Feed))) :=
  ⟨⟨by decide, by decide⟩,
    (do_refresh_all_error_isolation
      ⟨[⟨1, "A", "https://a.example/rss", false, none, none, none⟩,
        ⟨2, "B", "https://b.example/rss", false, none, none, none⟩],
       [], 1⟩
      "2024-01-01T00:00:00+00:00"
      (fun f => if f.id = 1 then Except.error "boom"
        else Except.ok ([], []))
      (by decide)).2.1
      ⟨1, "A", "https://a.example/rss", false, none, none, none⟩
      (by decide)⟩

end MoarNews
